import Mathlib

/-!
Verification of the krnl mandelbrot example (src/src/main.rs).

Modelling conventions:

* Rust `u32`/`usize` values are modelled as `ℕ`.  None of the quantities in the
  program (iteration counters bounded by `max_iterations`, pixel indices bounded
  by `h * w`) can overflow their machine type on the inputs the claims quantify
  over, and no wrapping arithmetic appears in the source.
* Rust `f32` arithmetic is modelled by exact rational arithmetic (`ℚ`).  Every
  claim settled here is about control flow, iteration counts, chunk geometry or
  monotone integer rounding, all of which are stated relative to this arithmetic
  model; the model keeps the source's formulas verbatim.  Rust's `f32::round`
  is round-half-away-from-zero, which agrees with Mathlib's `round` (round half
  up) on the non-negative values that arise here.
* `x as u8` on a non-negative float saturates at 255 in Rust, modelled by
  `min 255 ∘ Int.toNat`.  For `i ≠ max_iterations` and `max_iterations = 0` the
  source divides by zero in `f32`, producing `+∞`, and the saturating cast then
  yields 255; the model makes that branch explicit since `ℚ` has no infinity.
* `rayon`'s `into_par_iter().flat_map_iter(..).collect::<Vec<_>>()` on an
  indexed parallel iterator is order-preserving: it produces exactly the bytes
  of the corresponding sequential `flat_map`, which is how `parallel` is
  embedded.
* The gpu dispatcher's device loop (`for offset in (0..total).step_by(cs)`)
  is embedded with an explicit fuel argument equal to `total`, which bounds the
  number of loop iterations whenever the step `cs` is positive (Rust's
  `step_by` panics on step 0, which no claim exercises).
-/

/-- From `kernels::iterations_to_grayscale` (src/src/main.rs lines 55-63):
`if i == max_iterations { return 0; } (i as f32 * 255f32 / max_iterations as f32).round() as u8`.
The middle branch records what the `f32` division-by-zero produces when
`i ≠ max_iterations` and `max_iterations = 0`: `i * 255.0 / 0.0 = +∞`, and
`+∞ as u8` saturates to 255. -/
def iterations_to_grayscale (i max_iterations : ℕ) : ℕ :=
  if i = max_iterations then 0
  else if max_iterations = 0 then 255
  else min 255 (round ((i : ℚ) * 255 / (max_iterations : ℚ))).toNat

/-- Local `x0` of `mandelbro_impl`: `((c as f32) / (w as f32)) * 3.5 - 2.5`. -/
def mandel_x0 (c w : ℕ) : ℚ := ((c : ℚ) / (w : ℚ)) * 3.5 - 2.5

/-- Local `y0` of `mandelbro_impl`: `((r as f32) / (h as f32)) * 2.0 - 1.0`. -/
def mandel_y0 (r h : ℕ) : ℚ := ((r : ℚ) / (h : ℚ)) * 2.0 - 1.0

/-- The `while` loop of `mandelbro_impl` (src/src/main.rs lines 68-76), returning
the final value of `iteration`.  The loop guard is
`x*x + y*y <= 4.0 && iteration < max_iterations`; starting from `iteration = 0`
and incrementing once per pass, the conjunct `iteration < max_iterations` is
exactly fuel exhaustion when the fuel starts at `max_iterations`. -/
def mandel_loop (x0 y0 : ℚ) : ℚ → ℚ → ℕ → ℕ
  | _, _, 0 => 0
  | x, y, fuel + 1 =>
    if x * x + y * y ≤ 4 then
      mandel_loop x0 y0 (x * x - y * y + x0) (2 * x * y + y0) fuel + 1
    else 0

/-- From `kernels::mandelbro_impl` (src/src/main.rs lines 65-78). -/
def mandelbro_impl (r c h w max_iterations : ℕ) : ℕ :=
  iterations_to_grayscale (mandel_loop (mandel_x0 c w) (mandel_y0 r h) 0 0 max_iterations)
    max_iterations

/-- From `naive` (src/src/main.rs lines 6-10): sequential
`(0..h).flat_map(|r| (0..w).map(|c| mandelbro_impl(r, c, h, w, max_iterations))).collect()`. -/
def naive (h w max_iterations : ℕ) : List ℕ :=
  (List.range h).flatMap fun r =>
    (List.range w).map fun c => mandelbro_impl r c h w max_iterations

/-- From `parallel` (src/src/main.rs lines 12-21): the same per-row `flat_map`
run through rayon.  Rayon's ordered `collect` on an indexed parallel iterator
yields the rows concatenated in index order, i.e. the same list the sequential
`flat_map` yields. -/
def parallel (h w max_iterations : ℕ) : List ℕ :=
  (List.range h).flatMap fun r =>
    (List.range w).map fun c => mandelbro_impl r c h w max_iterations

/-- The flat-index decomposition performed by the `#[kernel] mandelbrot`
work-item (src/src/main.rs lines 85-87): `r = idx / W; c = idx % W`. -/
def flat_to_coord (idx w : ℕ) : ℕ × ℕ := (idx / w, idx % w)

/-- The inverse (row-major) mapping `idx = row * width + col` used by the spec
and implicitly by the evaluators' iteration order. -/
def coord_to_flat (r c w : ℕ) : ℕ := r * w + c

/-- The value the gpu kernel writes for absolute flat index `idx`
(src/src/main.rs lines 80-89): `mandelbro_impl(idx / W, idx % W, H, W, I)`. -/
def kernel_item (h w max_iterations idx : ℕ) : ℕ :=
  mandelbro_impl (idx / w) (idx % w) h w max_iterations

/-- Chunk size computed by `gpu` (src/src/main.rs lines 35-36):
`(max_groups * default_threads).min(y.len())` with `y.len() = h * w`;
`cap` stands for the device capacity product. -/
def gpu_chunk_size (cap total : ℕ) : ℕ := min cap total

/-- Offsets visited by `for offset in (0..total).step_by(cs)` starting from
`offset`, with an explicit fuel bounding the number of iterations. -/
def step_offsets (cs total : ℕ) : ℕ → ℕ → List ℕ
  | _, 0 => []
  | offset, fuel + 1 =>
    if offset < total then offset :: step_offsets cs total (offset + cs) fuel else []

/-- The offsets of the dispatch loop in `gpu` (src/src/main.rs line 37):
`(0..total).step_by(cs)`.  Fuel `total` suffices whenever `cs ≥ 1`. -/
def chunk_offsets (cs total : ℕ) : List ℕ := step_offsets cs total 0 total

/-- Effect of `kernel.dispatch(y.slice_mut(offset..fin), offset)` on the device
buffer, viewed as a function from flat index to byte: every index in
`[offset, fin)` receives its kernel value, all others are untouched. -/
def write_chunk (buf : ℕ → ℕ) (offset fin : ℕ) (item : ℕ → ℕ) : ℕ → ℕ :=
  fun j => if offset ≤ j ∧ j < fin then item j else buf j

/-- The dispatch loop of `gpu` (src/src/main.rs lines 37-44) over a list of
offsets: `bind_ok offset` models whether `y.slice_mut(offset..end)` returns
`Some`; on the first `None` the loop `break`s, leaving the buffer as is. -/
def run_chunks (bind_ok : ℕ → Bool) (item : ℕ → ℕ) (total cs : ℕ) :
    List ℕ → (ℕ → ℕ) → (ℕ → ℕ)
  | [], buf => buf
  | offset :: rest, buf =>
    if bind_ok offset then
      run_chunks bind_ok item total cs rest
        (write_chunk buf offset (min (offset + cs) total) item)
    else buf

/-- The whole `gpu` run (src/src/main.rs lines 23-46) for a device whose
capacity product is `cap` and whose sub-slice binding succeeds exactly on the
offsets where `bind_ok` is true: the zero-initialised buffer
(`Buffer::zeros`) is threaded through the dispatch loop and read back
(`y.to_vec()`). -/
def gpu_model (bind_ok : ℕ → Bool) (h w max_iterations cap : ℕ) : List ℕ :=
  (List.range (h * w)).map
    (run_chunks bind_ok (kernel_item h w max_iterations) (h * w)
      (gpu_chunk_size cap (h * w))
      (chunk_offsets (gpu_chunk_size cap (h * w)) (h * w)) fun _ => 0)

/-- The CLI surface of `main` (src/src/main.rs lines 114-133). -/
structure Cli where
  naiveFlag : Bool
  parallelFlag : Bool
  gpuFlag : Option ℕ
  allFlag : Bool
  height : ℕ
  width : ℕ
  max_iterations : ℕ
  save : Bool

/-- `let all = !(cli.naive || cli.parallel || cli.gpu.is_some())`
(src/src/main.rs line 137). -/
def cli_all (c : Cli) : Bool := !(c.naiveFlag || c.parallelFlag || c.gpuFlag.isSome)

/-- The `(height, width, max_iterations)` triples with which `main`
(src/src/main.rs lines 135-166) invokes an evaluator through `runalgo`, in
program order: naive, then parallel, then gpu. -/
def main_invocations (c : Cli) : List (ℕ × ℕ × ℕ) :=
  (if c.naiveFlag || cli_all c then [(c.height, c.width, c.max_iterations)] else []) ++
    (if c.parallelFlag || cli_all c then [(c.height, c.width, c.max_iterations)] else []) ++
      (if c.gpuFlag.isSome || cli_all c then [(c.height, c.width, c.max_iterations)] else [])

/-- Modelled from the spec (section 4.1 step 2): the orbit of the quadratic
recurrence `x' = x² - y² + x0`, `y' = 2xy + y0` from an arbitrary start. -/
def orbit_from (x0 y0 : ℚ) (x y : ℚ) : ℕ → ℚ × ℚ
  | 0 => (x, y)
  | n + 1 => orbit_from x0 y0 (x * x - y * y + x0) (2 * x * y + y0) n

/-- Modelled from the spec: the escape test `x² + y² > 4.0`. -/
def escape_test (p : ℚ × ℚ) : Bool := decide (4 < p.1 * p.1 + p.2 * p.2)

/-- Modelled from the spec (section 4.1 step 2): the number of iterations of
the recurrence from `(0,0)`, counting until the point escapes or the count
reaches `max_iterations`: the least `n < max_iterations` whose orbit point
escapes, and `max_iterations` when none does. -/
def spec_escape_count (x0 y0 : ℚ) (max_iterations : ℕ) : ℕ :=
  match (List.range max_iterations).find? (fun n => escape_test (orbit_from x0 y0 0 0 n)) with
  | some n => n
  | none => max_iterations

/-- Bridge from the source's `f32` rounding formula to exact natural division:
for `m > 0`, `round(i * 255 / m) = (510 * i + m) / (2 * m)` in `ℕ`. -/
theorem round_grayscale_eq (i m : ℕ) (hm : 0 < m) :
    round ((i : ℚ) * 255 / (m : ℚ)) = ((510 * i + m) / (2 * m) : ℕ) := by
  have hm0 : (m : ℚ) ≠ 0 := Nat.cast_ne_zero.mpr hm.ne'
  have key : (i : ℚ) * 255 / (m : ℚ) + 1 / 2 = ((510 * i + m : ℕ) : ℚ) / ((2 * m : ℕ) : ℚ) := by
    push_cast
    field_simp
    ring
  rw [round_eq, key, Rat.floor_natCast_div_natCast]
  norm_cast

/-- Closed form of `iterations_to_grayscale` over `ℕ` for a positive bound. -/
theorem iterations_to_grayscale_eq (i m : ℕ) (hm : 0 < m) :
    iterations_to_grayscale i m = if i = m then 0 else min 255 ((510 * i + m) / (2 * m)) := by
  unfold iterations_to_grayscale
  rcases eq_or_ne i m with h | h
  · simp [h]
  · rw [if_neg h, if_neg h, if_neg hm.ne', round_grayscale_eq i m hm, Int.toNat_natCast]

/-- Claim C9: for a fixed `maxIterations ≥ 1` the grayscale mapping is
non-decreasing in the escape-iteration count over the escaping range
`i1 ≤ i2 < maxIterations`. -/
theorem grayscale_monotone_on_escapes (m i1 i2 : ℕ) (hm : 1 ≤ m) (h12 : i1 ≤ i2) (h2 : i2 < m) :
    iterations_to_grayscale i1 m ≤ iterations_to_grayscale i2 m := by
  rw [iterations_to_grayscale_eq i1 m hm, iterations_to_grayscale_eq i2 m hm,
    if_neg (h12.trans_lt h2).ne, if_neg h2.ne]
  exact min_le_min le_rfl (Nat.div_le_div_right (by omega))

/-- Witness for C9 at `m = 1000`, `i1 = 1`, `i2 = 2`. -/
theorem grayscale_monotone_on_escapes_witness :
    (1 ≤ 1000 ∧ 1 ≤ 2 ∧ 2 < 1000) ∧
      iterations_to_grayscale 1 1000 ≤ iterations_to_grayscale 2 1000 :=
  ⟨by decide, grayscale_monotone_on_escapes 1000 1 2 (by decide) (by decide) (by decide)⟩

/-- Counterexample for C5: `iterations_to_grayscale 1 1000 = 0` although the
escape count 1 is neither `maxIterations` nor 0 — `round(1 * 255 / 1000) =
round(0.255) = 0`, so 0 is not reserved to non-escape and iteration-0 escape. -/
theorem grayscale_zero_for_small_escape :
    iterations_to_grayscale 1 1000 = 0 ∧ (1 : ℕ) ≠ 1000 ∧ (1 : ℕ) ≠ 0 := by
  refine ⟨?_, by decide, by decide⟩
  rw [iterations_to_grayscale_eq 1 1000 (by norm_num)]
  decide

/-- Claim C5, amended: for `maxIterations ≥ 1` the mapping returns 0 exactly
when `i = maxIterations` (non-escape) or `round(i * 255 / maxIterations) = 0`,
i.e. `510 * i < maxIterations` — not only at non-escape or an iteration-0
escape. -/
theorem grayscale_zero_iff (i m : ℕ) (hm : 1 ≤ m) :
    iterations_to_grayscale i m = 0 ↔ i = m ∨ 510 * i < m := by
  rw [iterations_to_grayscale_eq i m hm]
  rcases eq_or_ne i m with h | h
  · simp [h]
  · rw [if_neg h]
    simp only [h, false_or]
    constructor
    · intro h0
      have hq : (510 * i + m) / (2 * m) = 0 := by omega
      have := (Nat.div_eq_zero_iff (by omega)).mp hq
      omega
    · intro hlt
      have hq : (510 * i + m) / (2 * m) = 0 := (Nat.div_eq_zero_iff (by omega)).mpr (by omega)
      omega

/-- Witness for the amended C5 at `i = 2`, `m = 2`. -/
theorem grayscale_zero_iff_witness :
    1 ≤ 2 ∧ (iterations_to_grayscale 2 2 = 0 ↔ (2 : ℕ) = 2 ∨ 510 * 2 < 2) :=
  ⟨by decide, grayscale_zero_iff 2 2 (by decide)⟩

/-- Claim C10: with `maxIterations = 0` the kernel's while loop runs zero times
(the guard `iteration < max_iterations` fails immediately) and the grayscale
call hits its early-return branch (`i == max_iterations` with `i = 0`), so the
result is 0 and the division by `maxIterations` is never reached. -/
theorem mandelbro_zero_max_iterations_safe (r c h w : ℕ) (hh : 0 < h) (hw : 0 < w) :
    mandel_loop (mandel_x0 c w) (mandel_y0 r h) 0 0 0 = 0 ∧ mandelbro_impl r c h w 0 = 0 :=
  ⟨rfl, rfl⟩

/-- Witness for C10 at `r = 0`, `c = 0`, `h = 1`, `w = 1`. -/
theorem mandelbro_zero_max_iterations_safe_witness :
    (0 < 1 ∧ 0 < 1) ∧
      (mandel_loop (mandel_x0 0 1) (mandel_y0 0 1) 0 0 0 = 0 ∧ mandelbro_impl 0 0 1 1 0 = 0) :=
  ⟨by decide, mandelbro_zero_max_iterations_safe 0 0 1 1 (by decide) (by decide)⟩

/-- Claim C6: for `w > 0` and `idx < h * w`, the kernel's decomposition
`row = idx / w`, `col = idx % w` lands in `[0,h) × [0,w)` and
`row * w + col` recovers `idx`. -/
theorem flat_index_bijection (h w idx : ℕ) (hw : 0 < w) (hidx : idx < h * w) :
    (flat_to_coord idx w).1 < h ∧ (flat_to_coord idx w).2 < w ∧
      coord_to_flat (flat_to_coord idx w).1 (flat_to_coord idx w).2 w = idx := by
  refine ⟨(Nat.div_lt_iff_lt_mul hw).mpr hidx, Nat.mod_lt _ hw, ?_⟩
  · show idx / w * w + idx % w = idx
    rw [Nat.mul_comm]
    exact Nat.div_add_mod idx w

/-- Witness for C6 at `h = 2`, `w = 3`, `idx = 5`. -/
theorem flat_index_bijection_witness :
    (0 < 3 ∧ 5 < 2 * 3) ∧
      ((flat_to_coord 5 3).1 < 2 ∧ (flat_to_coord 5 3).2 < 3 ∧
        coord_to_flat (flat_to_coord 5 3).1 (flat_to_coord 5 3).2 3 = 5) :=
  ⟨by decide, flat_index_bijection 2 3 5 (by decide) (by decide)⟩

/-- Claim C1: the sequential and the rayon-parallel evaluator produce
byte-for-byte identical buffers for every run configuration with
`maxIterations ≥ 1`.  Both run the shared `mandelbro_impl` over the rows in
index order; rayon's ordered `collect` makes the parallel schedule invisible
in the output. -/
theorem naive_eq_parallel (h w m : ℕ) (hm : 1 ≤ m) : naive h w m = parallel h w m := rfl

/-- Witness for C1 at `h = 2`, `w = 3`, `m = 1`. -/
theorem naive_eq_parallel_witness : 1 ≤ 1 ∧ naive 2 3 1 = parallel 2 3 1 :=
  ⟨by decide, naive_eq_parallel 2 3 1 (by decide)⟩

/-- Counterexample for C7: `main` performs no validation of the CLI
parameters.  With `--naive --height 0` it invokes the naive evaluator with
`height = 0`, violating the invariant the claim says is enforced. -/
theorem main_accepts_zero_height :
    ¬ ∀ p ∈ main_invocations ⟨true, false, none, false, 0, 14000, 1000, false⟩,
        0 < p.1 ∧ 0 < p.2.1 ∧ 0 < p.2.2 := by
  decide

/-- Claim C7, amended: `main` rejects nothing — every evaluator invocation it
issues carries exactly the CLI-provided `height`, `width`, `maxIterations`,
including zero values. -/
theorem main_invokes_unvalidated (c : Cli) (p : ℕ × ℕ × ℕ) (hp : p ∈ main_invocations c) :
    p = (c.height, c.width, c.max_iterations) := by
  simp only [main_invocations, List.mem_append] at hp
  rcases hp with (h | h) | h <;> (split at h <;> simp_all)

/-- Witness for the amended C7: the default-like configuration running all
three evaluators at `height = 0`. -/
theorem main_invokes_unvalidated_witness :
    (0, 14000, 1000) ∈ main_invocations ⟨false, false, none, false, 0, 14000, 1000, false⟩ ∧
      (0, 14000, 1000) =
        ((⟨false, false, none, false, 0, 14000, 1000, false⟩ : Cli).height,
          (⟨false, false, none, false, 0, 14000, 1000, false⟩ : Cli).width,
          (⟨false, false, none, false, 0, 14000, 1000, false⟩ : Cli).max_iterations) :=
  ⟨by decide, main_invokes_unvalidated _ _ (by decide)⟩

/-- The source's while loop computes exactly the spec's escape count: the least
orbit index (from the given start) that escapes, capped at the fuel. -/
theorem mandel_loop_eq_find (x0 y0 : ℚ) :
    ∀ (fuel : ℕ) (x y : ℚ),
      mandel_loop x0 y0 x y fuel =
        match (List.range fuel).find? (fun n => escape_test (orbit_from x0 y0 x y n)) with
        | some n => n
        | none => fuel := by
  intro fuel
  induction fuel with
  | zero => intro x y; rfl
  | succ fuel ih =>
    intro x y
    cases hesc : escape_test (orbit_from x0 y0 x y 0) with
    | true =>
      have h4 : ¬ (x * x + y * y ≤ 4) := by
        have h := hesc
        simp only [escape_test, orbit_from, decide_eq_true_eq] at h
        exact not_le.mpr h
      simp only [mandel_loop, List.range_succ_eq_map, List.find?_cons, hesc]
      rw [if_neg h4]
    | false =>
      have h4 : x * x + y * y ≤ 4 := by
        have h := hesc
        simp only [escape_test, orbit_from, decide_eq_false_iff_not, not_lt] at h
        exact h
      simp only [mandel_loop, List.range_succ_eq_map, List.find?_cons, hesc, List.find?_map]
      rw [if_pos h4]
      have hcomp : ((fun n => escape_test (orbit_from x0 y0 x y n)) ∘ Nat.succ)
          = fun n => escape_test (orbit_from x0 y0 (x * x - y * y + x0) (2 * x * y + y0) n) := rfl
      rw [hcomp, ih]
      cases (List.range fuel).find?
          (fun n => escape_test (orbit_from x0 y0 (x * x - y * y + x0) (2 * x * y + y0) n)) with
      | none => rfl
      | some n => rfl

/-- Claim C2: `mandelbro_impl` maps the pixel to `x0 = (c/w)*3.5 - 2.5`,
`y0 = (r/h)*2.0 - 1.0`, iterates `x' = x² - y² + x0`, `y' = 2xy + y0` from
`(0,0)` counting iterations until `x² + y² > 4` or the count reaches
`maxIterations`, and returns the grayscale mapping of that count. -/
theorem mandelbro_impl_matches_spec (r c h w m : ℕ) (hh : 0 < h) (hw : 0 < w) :
    mandelbro_impl r c h w m =
      iterations_to_grayscale
        (spec_escape_count (((c : ℚ) / (w : ℚ)) * 3.5 - 2.5) (((r : ℚ) / (h : ℚ)) * 2.0 - 1.0) m)
        m := by
  unfold mandelbro_impl spec_escape_count mandel_x0 mandel_y0
  congr 1
  exact mandel_loop_eq_find _ _ m 0 0

/-- Witness for C2 at `r = 0`, `c = 0`, `h = 1`, `w = 1`, `m = 1`. -/
theorem mandelbro_impl_matches_spec_witness :
    (0 < 1 ∧ 0 < 1) ∧
      mandelbro_impl 0 0 1 1 1 =
        iterations_to_grayscale
          (spec_escape_count (((0 : ℚ) / (1 : ℚ)) * 3.5 - 2.5) (((0 : ℚ) / (1 : ℚ)) * 2.0 - 1.0) 1)
          1 :=
  ⟨by decide, mandelbro_impl_matches_spec 0 0 1 1 1 (by decide) (by decide)⟩

/-- Row-major normal form of the per-row `flat_map`: concatenating the rows of
an `H × w` image over the first `h` rows is the map of the pixel kernel over
the flat indices `0..h*w`, decomposed as `idx / w`, `idx % w`. -/
theorem rows_map_aux (H w m : ℕ) :
    ∀ h, ((List.range h).flatMap fun r =>
        (List.range w).map fun c => mandelbro_impl r c H w m)
      = (List.range (h * w)).map fun idx => mandelbro_impl (idx / w) (idx % w) H w m := by
  intro h
  induction h with
  | zero => simp
  | succ h ih =>
    rw [List.range_succ, List.flatMap_append, ih, List.flatMap_singleton, Nat.succ_mul,
      List.range_add, List.map_append, List.map_map]
    congr 1
    apply List.map_congr_left
    intro c hc
    have hcw : c < w := List.mem_range.mp hc
    have hw : 0 < w := by omega
    have h1 : (h * w + c) / w = h := by
      rw [Nat.mul_comm, Nat.mul_add_div hw, Nat.div_eq_of_lt hcw, Nat.add_zero]
    have h2 : (h * w + c) % w = c := by
      rw [Nat.mul_comm, Nat.mul_add_mod]
      exact Nat.mod_eq_of_lt hcw
    simp only [Function.comp_apply, h1, h2]

/-- Claim C8: each evaluator returns a flat buffer of length exactly `h * w`
laid out in row-major order, the byte at `r * w + c` being the pixel kernel's
value at `(r, c)`. -/
theorem evaluator_output_row_major (h w m r c : ℕ) (hr : r < h) (hc : c < w) :
    (naive h w m).length = h * w ∧ (parallel h w m).length = h * w ∧
      (naive h w m)[r * w + c]? = some (mandelbro_impl r c h w m) ∧
      (parallel h w m)[r * w + c]? = some (mandelbro_impl r c h w m) := by
  have hw : 0 < w := by omega
  have hnf : naive h w m
      = (List.range (h * w)).map fun idx => mandelbro_impl (idx / w) (idx % w) h w m :=
    rows_map_aux h w m h
  have hpar : parallel h w m = naive h w m := rfl
  have hidx : r * w + c < h * w := by
    have : r + 1 ≤ h := hr
    calc r * w + c < r * w + w := by omega
    _ = (r + 1) * w := (Nat.succ_mul r w).symm
    _ ≤ h * w := Nat.mul_le_mul_right w this
  have h1 : (r * w + c) / w = r := by
    rw [Nat.mul_comm, Nat.mul_add_div hw, Nat.div_eq_of_lt hc, Nat.add_zero]
  have h2 : (r * w + c) % w = c := by
    rw [Nat.mul_comm, Nat.mul_add_mod]
    exact Nat.mod_eq_of_lt hc
  have hget : (naive h w m)[r * w + c]? = some (mandelbro_impl r c h w m) := by
    rw [hnf, List.getElem?_map, List.getElem?_range hidx, Option.map_some', h1, h2]
  have hlen : (naive h w m).length = h * w := by
    rw [hnf, List.length_map, List.length_range]
  exact ⟨hlen, by rw [hpar]; exact hlen, hget, by rw [hpar]; exact hget⟩

/-- Witness for C8 at `h = 2`, `w = 3`, `m = 1`, `r = 1`, `c = 2`. -/
theorem evaluator_output_row_major_witness :
    (1 < 2 ∧ 2 < 3) ∧
      ((naive 2 3 1).length = 2 * 3 ∧ (parallel 2 3 1).length = 2 * 3 ∧
        (naive 2 3 1)[1 * 3 + 2]? = some (mandelbro_impl 1 2 2 3 1) ∧
        (parallel 2 3 1)[1 * 3 + 2]? = some (mandelbro_impl 1 2 2 3 1)) :=
  ⟨by decide, evaluator_output_row_major 2 3 1 1 2 (by decide) (by decide)⟩

/-- Closed form of the `step_by` loop: with positive step `cs` and enough fuel,
the visited offsets are the first `ceil((total - offset) / cs)` multiples of
`cs` shifted by the start offset. -/
theorem step_offsets_closed (cs total : ℕ) (hcs : 0 < cs) :
    ∀ (fuel offset : ℕ), total ≤ offset + fuel * cs →
      step_offsets cs total offset fuel
        = (List.range ((total - offset + cs - 1) / cs)).map fun i => offset + i * cs := by
  intro fuel
  induction fuel with
  | zero =>
    intro offset hle
    have hz : (total - offset + cs - 1) / cs = 0 :=
      (Nat.div_eq_zero_iff hcs).mpr (by omega)
    simp [step_offsets, hz]
  | succ fuel ih =>
    intro offset hle
    rw [step_offsets]
    by_cases hof : offset < total
    · rw [if_pos hof]
      have hmul : (fuel + 1) * cs = fuel * cs + cs := Nat.succ_mul fuel cs
      rw [ih (offset + cs) (by omega)]
      have hdiv : (total - offset + cs - 1) / cs
          = (total - (offset + cs) + cs - 1) / cs + 1 := by
        have hd1 : 1 ≤ total - offset := by omega
        have e1 : total - offset + cs - 1 = (total - offset - 1) + cs := by omega
        rw [e1, Nat.add_div_right _ hcs]
        rcases le_or_lt (total - offset) cs with hc | hc
        · have e2 : total - (offset + cs) = 0 := by omega
          rw [e2]
          have e3 : (0 + cs - 1) / cs = 0 := (Nat.div_eq_zero_iff hcs).mpr (by omega)
          have e4 : (total - offset - 1) / cs = 0 := (Nat.div_eq_zero_iff hcs).mpr (by omega)
          rw [e3, e4]
        · have e2 : total - (offset + cs) = total - offset - cs := by omega
          rw [e2]
          have e5 : total - offset - cs + cs - 1 = (total - offset - cs - 1) + cs := by omega
          rw [e5, Nat.add_div_right _ hcs]
          have e6 : total - offset - 1 = (total - offset - cs - 1) + cs := by omega
          rw [e6, Nat.add_div_right _ hcs]
      rw [hdiv, List.range_succ_eq_map, List.map_cons, List.map_map]
      have hfun : ((fun i => offset + i * cs) ∘ Nat.succ)
          = fun i => offset + cs + i * cs := by
        funext i
        show offset + (i + 1) * cs = offset + cs + i * cs
        ring
      rw [hfun]
      simp
    · rw [if_neg hof]
      have hz : (total - offset + cs - 1) / cs = 0 :=
        (Nat.div_eq_zero_iff hcs).mpr (by omega)
      simp [hz]

/-- The dispatch offsets of `gpu` are the multiples `0, cs, 2*cs, ...` below
`ceil(total / cs) * cs`. -/
theorem chunk_offsets_closed (cs total : ℕ) (hcs : 0 < cs) :
    chunk_offsets cs total = (List.range ((total + cs - 1) / cs)).map (· * cs) := by
  unfold chunk_offsets
  have hfuel : total ≤ 0 + total * cs := by
    have := Nat.le_mul_of_pos_right total hcs
    omega
  rw [step_offsets_closed cs total hcs total 0 hfuel]
  simp

/-- The chunk count `ceil(total / cs)` covers all of `[0, total)`:
`total ≤ ceil(total / cs) * cs`. -/
theorem total_le_ceil_mul (cs total : ℕ) (hcs : 0 < cs) :
    total ≤ ((total + cs - 1) / cs) * cs := by
  rcases Nat.eq_zero_or_pos total with h0 | h1
  · simp [h0]
  · have e1 : total + cs - 1 = (total - 1) + cs := by omega
    rw [e1, Nat.add_div_right _ hcs]
    have hdm := Nat.div_add_mod (total - 1) cs
    have hmod := Nat.mod_lt (total - 1) hcs
    have hcomm : cs * ((total - 1) / cs) = ((total - 1) / cs) * cs := Nat.mul_comm _ _
    have hsm : ((total - 1) / cs + 1) * cs = ((total - 1) / cs) * cs + cs :=
      Nat.succ_mul _ _
    omega

/-- Claim C3: for `total = h * w > 0` and a device capacity `1 ≤ cap < total`,
`gpu` uses chunk size `min cap total`, issues exactly `ceil(total / chunkSize)`
launches at strictly increasing offsets, and every index of `[0, total)` lies
in the half-open range `[offset, min(offset + chunkSize, total))` of exactly
one launch. -/
theorem gpu_chunks_partition (h w cap : ℕ) (htotal : 0 < h * w) (hcap : 1 ≤ cap)
    (hlt : cap < h * w) :
    gpu_chunk_size cap (h * w) = min cap (h * w) ∧
      (chunk_offsets (gpu_chunk_size cap (h * w)) (h * w)).length
        = (h * w + gpu_chunk_size cap (h * w) - 1) / gpu_chunk_size cap (h * w) ∧
      List.Pairwise (· < ·) (chunk_offsets (gpu_chunk_size cap (h * w)) (h * w)) ∧
      ∀ j < h * w, ∃! offset,
        offset ∈ chunk_offsets (gpu_chunk_size cap (h * w)) (h * w) ∧
          offset ≤ j ∧ j < min (offset + gpu_chunk_size cap (h * w)) (h * w) := by
  have hcs : 0 < gpu_chunk_size cap (h * w) := by
    unfold gpu_chunk_size
    omega
  set cs := gpu_chunk_size cap (h * w) with hcs_def
  set total := h * w with htot_def
  rw [chunk_offsets_closed cs total hcs]
  refine ⟨rfl, ?_, ?_, ?_⟩
  · rw [List.length_map, List.length_range]
  · exact List.pairwise_map.mpr
      (List.Pairwise.imp (fun hab => (mul_lt_mul_right hcs).mpr hab)
        (List.pairwise_lt_range _))
  · intro j hj
    have hN : (total + cs - 1) / cs = (total - 1) / cs + 1 := by
      rw [show total + cs - 1 = (total - 1) + cs by omega, Nat.add_div_right _ hcs]
    have hjdiv : j / cs ≤ (total - 1) / cs := Nat.div_le_div_right (by omega)
    have hdm := Nat.div_add_mod j cs
    have hmod := Nat.mod_lt j hcs
    have hcomm : cs * (j / cs) = (j / cs) * cs := Nat.mul_comm _ _
    refine ⟨j / cs * cs, ⟨List.mem_map.mpr ⟨j / cs, List.mem_range.mpr (by omega), rfl⟩,
      by omega, by omega⟩, ?_⟩
    rintro o ⟨homem, hole, holt⟩
    obtain ⟨i, hi, rfl⟩ := List.mem_map.mp homem
    have h1 : i ≤ j / cs := (Nat.le_div_iff_mul_le hcs).mpr hole
    have hsm : (i + 1) * cs = i * cs + cs := Nat.succ_mul _ _
    have h2 : j / cs < i + 1 := (Nat.div_lt_iff_lt_mul hcs).mpr (by omega)
    have : i = j / cs := by omega
    rw [this]

/-- Witness for C3 at `h = 1`, `w = 3`, `cap = 2`. -/
theorem gpu_chunks_partition_witness :
    (0 < 1 * 3 ∧ 1 ≤ 2 ∧ 2 < 1 * 3) ∧
      (gpu_chunk_size 2 (1 * 3) = min 2 (1 * 3) ∧
        (chunk_offsets (gpu_chunk_size 2 (1 * 3)) (1 * 3)).length
          = (1 * 3 + gpu_chunk_size 2 (1 * 3) - 1) / gpu_chunk_size 2 (1 * 3) ∧
        List.Pairwise (· < ·) (chunk_offsets (gpu_chunk_size 2 (1 * 3)) (1 * 3)) ∧
        ∀ j < 1 * 3, ∃! offset,
          offset ∈ chunk_offsets (gpu_chunk_size 2 (1 * 3)) (1 * 3) ∧
            offset ≤ j ∧ j < min (offset + gpu_chunk_size 2 (1 * 3)) (1 * 3)) :=
  ⟨by decide, gpu_chunks_partition 1 3 2 (by decide) (by decide) (by decide)⟩

/-- The dispatch loop with early `break` processes exactly the longest prefix
of offsets on which the sub-slice binding succeeds. -/
theorem run_chunks_eq_takeWhile (bind_ok : ℕ → Bool) (item : ℕ → ℕ) (total cs : ℕ) :
    ∀ (offsets : List ℕ) (buf : ℕ → ℕ),
      run_chunks bind_ok item total cs offsets buf
        = (offsets.takeWhile bind_ok).foldl
            (fun b offset => write_chunk b offset (min (offset + cs) total) item) buf := by
  intro offsets
  induction offsets with
  | nil => intro buf; rfl
  | cons o rest ih =>
    intro buf
    rw [run_chunks, List.takeWhile_cons]
    cases hbo : bind_ok o with
    | true => rw [if_pos rfl, ih, if_pos rfl, List.foldl_cons]
    | false => rw [if_neg (by simp)]; rfl

/-- `takeWhile (· < m)` on `range n` keeps exactly the first `min m n`
numbers. -/
theorem takeWhile_lt_range (m n : ℕ) :
    (List.range n).takeWhile (fun i => decide (i < m)) = List.range (min m n) := by
  induction n generalizing m with
  | zero => simp
  | succ n ih =>
    rw [List.range_succ_eq_map, List.takeWhile_cons]
    cases m with
    | zero => simp
    | succ m =>
      rw [show (decide (0 < m + 1)) = true by simp, if_pos rfl, List.takeWhile_map]
      have hcomp : ((fun i => decide (i < m + 1)) ∘ Nat.succ) = fun i => decide (i < m) := by
        funext i
        simp [Function.comp, Nat.succ_lt_succ_iff]
      rw [hcomp, ih m, ← List.range_succ_eq_map]
      congr 1
      omega

/-- Folding the chunk writes for the first `M` chunks over a buffer fills
exactly the indices below `min (M * cs) total` with kernel values. -/
theorem foldl_write_chunks (item : ℕ → ℕ) (total cs : ℕ) :
    ∀ (M : ℕ) (buf : ℕ → ℕ),
      ((List.range M).map (· * cs)).foldl
          (fun b offset => write_chunk b offset (min (offset + cs) total) item) buf
        = fun j => if j < min (M * cs) total then item j else buf j := by
  intro M
  induction M with
  | zero =>
    intro buf
    funext j
    simp
  | succ M ih =>
    intro buf
    rw [List.range_succ, List.map_append, List.foldl_append, ih]
    funext j
    simp only [List.map_cons, List.map_nil, List.foldl_cons, List.foldl_nil, write_chunk]
    have hsm : (M + 1) * cs = M * cs + cs := Nat.succ_mul _ _
    split_ifs <;> first | rfl | omega

/-- Claim C4: if the device refuses to bind every offset at or beyond the
chunk boundary `n * chunkSize`, `gpu` dispatches no further chunks after the
first refusal, keeps the chunks already written, leaves the tail of the
zero-initialised buffer untouched, and still returns a full-length buffer:
index `j` holds the kernel's value for `j < n * chunkSize` and 0 otherwise. -/
theorem gpu_degraded_dispatch (h w m cap n : ℕ) (bind_ok : ℕ → Bool) (hcap : 1 ≤ cap)
    (hbind : ∀ offset, bind_ok offset = decide (offset < n * gpu_chunk_size cap (h * w))) :
    (gpu_model bind_ok h w m cap).length = h * w ∧
      ∀ j < h * w, (gpu_model bind_ok h w m cap)[j]?
        = some (if j < n * gpu_chunk_size cap (h * w) then kernel_item h w m j else 0) := by
  constructor
  · rw [gpu_model, List.length_map, List.length_range]
  · intro j hj
    have htotal : 0 < h * w := by omega
    have hcs : 0 < gpu_chunk_size cap (h * w) := by
      unfold gpu_chunk_size
      omega
    set cs := gpu_chunk_size cap (h * w) with hcs_def
    set total := h * w with htot_def
    set N := (total + cs - 1) / cs with hN_def
    rw [gpu_model, List.getElem?_map, List.getElem?_range hj, Option.map_some']
    rw [run_chunks_eq_takeWhile, chunk_offsets_closed cs total hcs, List.takeWhile_map]
    have hcomp : (bind_ok ∘ (· * cs)) = fun i => decide (i < n) := by
      funext i
      rw [Function.comp_apply, hbind]
      exact decide_eq_decide.mpr (mul_lt_mul_right hcs)
    rw [hcomp, takeWhile_lt_range, foldl_write_chunks]
    have hcover : j < min (min n N * cs) total ↔ j < n * cs := by
      by_cases hn : n ≤ N
      · rw [min_eq_left hn]
        omega
      · rw [min_eq_right (le_of_not_le hn)]
        have htot_le : total ≤ N * cs := total_le_ceil_mul cs total hcs
        have hNn : N * cs ≤ n * cs := Nat.mul_le_mul_right _ (by omega)
        omega
    exact congrArg some (if_congr hcover rfl rfl)

/-- Witness for C4 at `h = 1`, `w = 3`, `m = 1`, `cap = 2`, failure from the
chunk boundary `1 * chunkSize = 2` on. -/
theorem gpu_degraded_dispatch_witness :
    (1 ≤ 2) ∧
      ((gpu_model (fun offset => decide (offset < 1 * gpu_chunk_size 2 (1 * 3))) 1 3 1 2).length
          = 1 * 3 ∧
        ∀ j < 1 * 3,
          (gpu_model (fun offset => decide (offset < 1 * gpu_chunk_size 2 (1 * 3))) 1 3 1 2)[j]?
            = some (if j < 1 * gpu_chunk_size 2 (1 * 3) then kernel_item 1 3 1 j else 0)) :=
  ⟨by decide, gpu_degraded_dispatch 1 3 1 2 1 _ (by decide) (fun _ => rfl)⟩
